import Mathlib

/-!
Verification of the Q-criterion search kernel `nj_minq_cy` from
`skbio/tree/_c_nj.pyx` (neighbor joining), as a shallow embedding in Lean.

The source function receives a typed memoryview `dm` (the `n × n` distance
matrix, `n = dm.shape[0]`) and a memoryview `sums` (the distance-sum vector),
and scans the strict upper triangle of `dm`, tracking a running minimum of
`Q(i, j) = (n - 2) * d(i, j) - sums[i] - sums[j]` without materializing the
Q-matrix.  It is compiled with `boundscheck=False`, and the result variables
`min_i, min_j` are uninitialized C locals until the first update.

Modelling choices:
* floating-point values are modelled by exact rationals `ℚ`; the single
  `INFINITY` sentinel (the initial `min_q`, propagated into `min_q_plus`)
  is modelled by `Option ℚ` with `none` standing for `+∞`;
* the memory the function can read is a state record `NJMem`, threaded
  explicitly through every step; a read of `sums[k]` goes through the state
  and yields `none` when `k` is out of bounds (the source would touch memory
  outside the buffer), and returning with `min_i, min_j` never assigned
  (possible only when no comparison ever succeeded) yields `none` as well;
* the loops `for i in range(n)` / `for j in range(i + 1, n)` become
  structural recursion over `List.range n` / `List.range' (i + 1) (n - (i + 1))`.
-/

/-- Memory visible to `nj_minq_cy`: the distance-matrix buffer (a total
function giving the contents of the cell `(i, j)`) and the distance-sum
vector (a finite list, so out-of-bounds reads are detectable). -/
structure NJMem where
  dm : ℕ → ℕ → ℚ
  sums : List ℚ

/-- Read `dm[i, j]` from the state; the read returns the state unchanged. -/
def readDM (st : NJMem) (i j : ℕ) : ℚ × NJMem :=
  (st.dm i j, st)

/-- Read `sums[k]` from the state; `none` models an out-of-bounds access
(the source is compiled with `boundscheck=False`, so such a read has no
defined value).  The read returns the state unchanged. -/
def readSums (st : NJMem) (k : ℕ) : Option ℚ × NJMem :=
  (st.sums.get? k, st)

/-- `x < m` for the running minimum `m : Option ℚ`, where `none` encodes the
C float `INFINITY`: every finite value compares strictly below it. -/
def qlt (x : ℚ) : Option ℚ → Prop
  | none => True
  | some y => x < y

instance (x : ℚ) : (m : Option ℚ) → Decidable (qlt x m)
  | none => .isTrue trivial
  | some y => inferInstanceAs (Decidable (x < y))

/-- The inner loop `for j in range(i + 1, n)` of `nj_minq_cy`, with the list
of remaining `j` values explicit.  State: `min_q_plus` (loop-local running
minimum plus `sums[i]`), `min_q`, and the current location `min_ij`
(`none` while `min_i, min_j` are still uninitialized).  Mirrors

    q_plus = dm[i, j] * n_2 - sums[j]
    if q_plus < min_q_plus:
        min_q_plus = q_plus
        min_q = q_plus - sums[i]
        min_i, min_j = i, j
-/
def njInner : NJMem → ℚ → ℕ → List ℕ → Option ℚ → Option ℚ → Option (ℕ × ℕ) →
    Option (Option ℚ × Option ℚ × Option (ℕ × ℕ)) × NJMem
  | st, _, _, [], min_q_plus, min_q, min_ij => (some (min_q_plus, min_q, min_ij), st)
  | st, n_2, i, j :: js, min_q_plus, min_q, min_ij =>
    match readSums st j with
    | (none, st1) => (none, st1)
    | (some sj, st1) =>
      match readDM st1 i j with
      | (dij, st2) =>
        let q_plus : ℚ := dij * n_2 - sj
        if qlt q_plus min_q_plus then
          -- the update re-reads sums[i] for `min_q = q_plus - sums[i]`
          match readSums st2 i with
          | (none, st3) => (none, st3)
          | (some si, st3) =>
            njInner st3 n_2 i js (some q_plus) (some (q_plus - si)) (some (i, j))
        else
          njInner st2 n_2 i js min_q_plus min_q min_ij

/-- The outer loop `for i in range(n)` of `nj_minq_cy`, with the list of
remaining `i` values explicit.  Mirrors

    min_q_plus = min_q + sums[i]
    for j in range(i + 1, n): ...
-/
def njOuter : NJMem → ℚ → ℕ → List ℕ → Option ℚ → Option (ℕ × ℕ) →
    Option (Option ℚ × Option (ℕ × ℕ)) × NJMem
  | st, _, _, [], min_q, min_ij => (some (min_q, min_ij), st)
  | st, n_2, n, i :: is, min_q, min_ij =>
    match readSums st i with
    | (none, st1) => (none, st1)
    | (some si, st1) =>
      match njInner st1 n_2 i (List.range' (i + 1) (n - (i + 1))) (min_q.map (· + si))
          min_q min_ij with
      | (none, st2) => (none, st2)
      | (some (_, min_q2, min_ij2), st2) => njOuter st2 n_2 n is min_q2 min_ij2

/-- `nj_minq_cy` in state-passing form: runs the scan on the given memory and
returns the final `(min_i, min_j)` (or `none` when it is undefined) together
with the final memory.  `n` is `dm.shape[0]`, the matrix dimension;
`n_2 = n - 2.0` and `min_q` starts at `INFINITY`. -/
def nj_minq_cy_st (st : NJMem) (n : ℕ) : Option (ℕ × ℕ) × NJMem :=
  match njOuter st ((n : ℚ) - 2) n (List.range n) none none with
  | (none, st1) => (none, st1)
  | (some (_, min_ij), st1) => (min_ij, st1)

/-- `nj_minq_cy dm sums n`: the value returned by the source function on the
matrix buffer `dm` (of dimension `n = dm.shape[0]`) and sum vector `sums`. -/
def nj_minq_cy (dm : ℕ → ℕ → ℚ) (sums : List ℚ) (n : ℕ) : Option (ℕ × ℕ) :=
  (nj_minq_cy_st ⟨dm, sums⟩ n).1

/-! ### Reference (brute-force) formulation of the Q-criterion -/

/-- The Q value `Q(i, j) = (n - 2) * d(i, j) - sums[i] - sums[j]` of a pair,
with `n_2 = n - 2` passed explicitly (out-of-range sum entries default to 0;
all pairs we evaluate are in range). -/
def qval (dm : ℕ → ℕ → ℚ) (sums : List ℚ) (n_2 : ℚ) (p : ℕ × ℕ) : ℚ :=
  dm p.1 p.2 * n_2 - sums.getD p.1 0 - sums.getD p.2 0

/-- One step of the brute-force running minimum: keep the incumbent unless
the new pair scores strictly less (first-wins tie-breaking). -/
def stepMin (f : ℕ × ℕ → ℚ) (acc : Option (ℕ × ℕ)) (p : ℕ × ℕ) : Option (ℕ × ℕ) :=
  match acc with
  | none => some p
  | some q => if f p < f q then some p else some q

/-- All index pairs of the strict upper triangle, in the source's scan order:
`i = 0..n-1` outer, `j = i+1..n-1` inner. -/
def scanPairs (n : ℕ) : List (ℕ × ℕ) :=
  (List.range n).flatMap fun i => (List.range' (i + 1) (n - (i + 1))).map (Prod.mk i)

/-- Brute-force reference: the first pair of `l` attaining the minimum of
`f`, `none` on the empty list. -/
def firstMin (f : ℕ × ℕ → ℚ) (l : List (ℕ × ℕ)) : Option (ℕ × ℕ) :=
  l.foldl (stepMin f) none

/-- The row-sum vector of the `n × n` matrix `dm`:
`sums[k] = Σ_m dm[k, m]`. -/
def rowSums (n : ℕ) (dm : ℕ → ℕ → ℚ) : List ℚ :=
  (List.range n).map fun i => ((List.range n).map fun j => dm i j).sum

/-- `p` comes strictly before `q` in the scan order of the upper triangle
(row-major, then column order). -/
def scanBefore (p q : ℕ × ℕ) : Prop :=
  p.1 < q.1 ∨ (p.1 = q.1 ∧ p.2 < q.2)

/-! ### Concrete inputs used as witnesses -/

/-- The 3-taxon example distance matrix of the spec:
`d(A,B) = 5, d(A,C) = 9, d(B,C) = 10` (symmetric, zero diagonal, and 0 on
all cells outside the 3×3 block except the symmetric pads at `i + j ≤ 3`). -/
def dm3 : ℕ → ℕ → ℚ := fun i j =>
  if i = j then 0
  else if i + j = 1 then 5
  else if i + j = 2 then 9
  else if i + j = 3 then 10
  else 0

/-- The row sums of `dm3` over its 3×3 block. -/
def sums3 : List ℚ := [14, 15, 19]

/-- A matrix agreeing with `dm3` on the 3×3 block but different elsewhere. -/
def dm3pad : ℕ → ℕ → ℚ := fun i j => if i < 3 ∧ j < 3 then dm3 i j else 7

/-- A matrix agreeing with `dm3` strictly above the diagonal but different
on and below it. -/
def dm3low : ℕ → ℕ → ℚ := fun i j => if j ≤ i then 42 else dm3 i j


lemma njInner_state (n_2 : ℚ) (i : ℕ) :
    ∀ (js : List ℕ) (st : NJMem) (mqp mq : Option ℚ) (mij : Option (ℕ × ℕ)),
    (njInner st n_2 i js mqp mq mij).2 = st := by
  intro js
  induction js with
  | nil => intro st mqp mq mij; rfl
  | cons j js ih =>
    intro st mqp mq mij
    simp only [njInner, readSums, readDM]
    cases hj : st.sums.get? j with
    | none => rfl
    | some sj =>
      dsimp only
      by_cases hcond : qlt (st.dm i j * n_2 - sj) mqp
      · rw [if_pos hcond]
        cases hi : st.sums.get? i with
        | none => rfl
        | some si => exact ih st _ _ _
      · rw [if_neg hcond]
        exact ih st _ _ _

lemma njOuter_state (n_2 : ℚ) (n : ℕ) :
    ∀ (is : List ℕ) (st : NJMem) (mq : Option ℚ) (mij : Option (ℕ × ℕ)),
    (njOuter st n_2 n is mq mij).2 = st := by
  intro is
  induction is with
  | nil => intro st mq mij; rfl
  | cons i is ih =>
    intro st mq mij
    simp only [njOuter, readSums]
    cases hi : st.sums.get? i with
    | none => rfl
    | some si =>
      dsimp only
      have hst := njInner_state n_2 i (List.range' (i + 1) (n - (i + 1))) st
        (mq.map (· + si)) mq mij
      cases hr : njInner st n_2 i (List.range' (i + 1) (n - (i + 1)))
          (mq.map (· + si)) mq mij with
      | mk r st2 =>
        rw [hr] at hst
        cases r with
        | none => exact hst
        | some t =>
          obtain ⟨mqp2, mq2, mij2⟩ := t
          rw [ih st2 mq2 mij2]
          exact hst

theorem nj_minq_cy_st_preserves_state (st : NJMem) (n : ℕ) :
    (nj_minq_cy_st st n).2 = st := by
  have h := njOuter_state ((n : ℚ) - 2) n (List.range n) st none none
  unfold nj_minq_cy_st
  cases hr : njOuter st ((n : ℚ) - 2) n (List.range n) none none with
  | mk r st1 =>
    rw [hr] at h
    cases r with
    | none => exact h
    | some t => obtain ⟨mq, mij⟩ := t; exact h

/-! ### Properties of the brute-force running minimum -/

lemma stepMin_none (f : ℕ × ℕ → ℚ) (p : ℕ × ℕ) : stepMin f none p = some p := rfl

lemma stepMin_some (f : ℕ × ℕ → ℚ) (a p : ℕ × ℕ) :
    stepMin f (some a) p = if f p < f a then some p else some a := rfl

lemma foldl_stepMin_ne_none (f : ℕ × ℕ → ℚ) :
    ∀ (l : List (ℕ × ℕ)) (a : ℕ × ℕ), l.foldl (stepMin f) (some a) ≠ none := by
  intro l
  induction l with
  | nil => intro a h; exact Option.noConfusion h
  | cons p l ih =>
    intro a
    rw [List.foldl_cons, stepMin_some]
    by_cases hc : f p < f a
    · rw [if_pos hc]; exact ih p
    · rw [if_neg hc]; exact ih a

lemma foldl_stepMin_mem (f : ℕ × ℕ → ℚ) :
    ∀ (l : List (ℕ × ℕ)) (acc : Option (ℕ × ℕ)) (p : ℕ × ℕ),
    l.foldl (stepMin f) acc = some p → acc = some p ∨ p ∈ l := by
  intro l
  induction l with
  | nil => intro acc p h; exact Or.inl h
  | cons q l ih =>
    intro acc p h
    rw [List.foldl_cons] at h
    rcases ih (stepMin f acc q) p h with h1 | h1
    · cases acc with
      | none =>
        rw [stepMin_none] at h1
        have : q = p := Option.some.inj h1
        subst this
        exact Or.inr (List.mem_cons_self q l)
      | some a =>
        rw [stepMin_some] at h1
        by_cases hc : f q < f a
        · rw [if_pos hc] at h1
          have : q = p := Option.some.inj h1
          subst this
          exact Or.inr (List.mem_cons_self q l)
        · rw [if_neg hc] at h1
          exact Or.inl h1
    · exact Or.inr (List.mem_cons_of_mem q h1)

lemma foldl_stepMin_le (f : ℕ × ℕ → ℚ) :
    ∀ (l : List (ℕ × ℕ)) (acc : Option (ℕ × ℕ)) (p : ℕ × ℕ),
    l.foldl (stepMin f) acc = some p →
    (∀ a, acc = some a → f p ≤ f a) ∧ ∀ q ∈ l, f p ≤ f q := by
  intro l
  induction l with
  | nil =>
    intro acc p h
    rw [List.foldl_nil] at h
    refine ⟨fun a ha => ?_, fun q hq => absurd hq (List.not_mem_nil q)⟩
    rw [ha] at h
    rw [Option.some.inj h]
  | cons q l ih =>
    intro acc p h
    rw [List.foldl_cons] at h
    obtain ⟨h1, h2⟩ := ih (stepMin f acc q) p h
    have hq : f p ≤ f q := by
      cases acc with
      | none => exact h1 q (stepMin_none f q)
      | some a =>
        by_cases hc : f q < f a
        · exact h1 q (by rw [stepMin_some, if_pos hc])
        · exact le_trans (h1 a (by rw [stepMin_some, if_neg hc])) (not_lt.mp hc)
    refine ⟨fun a ha => ?_, fun r hr => ?_⟩
    · subst ha
      by_cases hc : f q < f a
      · exact le_trans hq (le_of_lt hc)
      · exact h1 a (by rw [stepMin_some, if_neg hc])
    · rcases List.mem_cons.mp hr with h3 | h3
      · rw [h3]; exact hq
      · exact h2 r h3

lemma foldl_stepMin_first (f : ℕ × ℕ → ℚ) :
    ∀ (l : List (ℕ × ℕ)) (a p : ℕ × ℕ),
    l.foldl (stepMin f) (some a) = some p →
    (p = a ∧ ∀ q ∈ l, f a ≤ f q) ∨
    (∃ l1 l2, l = l1 ++ p :: l2 ∧ f p < f a ∧ ∀ q ∈ l1, f p < f q) := by
  intro l
  induction l with
  | nil =>
    intro a p h
    rw [List.foldl_nil] at h
    exact Or.inl ⟨(Option.some.inj h).symm, fun q hq => absurd hq (List.not_mem_nil q)⟩
  | cons q l ih =>
    intro a p h
    rw [List.foldl_cons, stepMin_some] at h
    by_cases hc : f q < f a
    · rw [if_pos hc] at h
      rcases ih q p h with ⟨h1, h2⟩ | ⟨l1, l2, h1, h2, h3⟩
      · subst h1
        exact Or.inr ⟨[], l, rfl, hc, fun r hr => absurd hr (List.not_mem_nil r)⟩
      · refine Or.inr ⟨q :: l1, l2, by rw [h1]; rfl, lt_trans h2 hc, fun r hr => ?_⟩
        rcases List.mem_cons.mp hr with h4 | h4
        · rw [h4]; exact h2
        · exact h3 r h4
    · rw [if_neg hc] at h
      rcases ih a p h with ⟨h1, h2⟩ | ⟨l1, l2, h1, h2, h3⟩
      · refine Or.inl ⟨h1, fun r hr => ?_⟩
        rcases List.mem_cons.mp hr with h4 | h4
        · rw [h4]; exact not_lt.mp hc
        · exact h2 r h4
      · refine Or.inr ⟨q :: l1, l2, by rw [h1]; rfl, h2, fun r hr => ?_⟩
        rcases List.mem_cons.mp hr with h4 | h4
        · rw [h4]; exact lt_of_lt_of_le h2 (not_lt.mp hc)
        · exact h3 r h4

lemma firstMin_first (f : ℕ × ℕ → ℚ) (l : List (ℕ × ℕ)) (p : ℕ × ℕ)
    (h : firstMin f l = some p) :
    ∃ l1 l2, l = l1 ++ p :: l2 ∧ ∀ q ∈ l1, f p < f q := by
  cases l with
  | nil => exact Option.noConfusion h
  | cons q l =>
    unfold firstMin at h
    rw [List.foldl_cons, stepMin_none] at h
    rcases foldl_stepMin_first f l q p h with ⟨h1, _⟩ | ⟨l1, l2, h1, h2, h3⟩
    · subst h1
      exact ⟨[], l, rfl, fun r hr => absurd hr (List.not_mem_nil r)⟩
    · refine ⟨q :: l1, l2, by rw [h1]; rfl, fun r hr => ?_⟩
      rcases List.mem_cons.mp hr with h4 | h4
      · rw [h4]; exact h2
      · exact h3 r h4

lemma firstMin_mem (f : ℕ × ℕ → ℚ) (l : List (ℕ × ℕ)) (p : ℕ × ℕ)
    (h : firstMin f l = some p) : p ∈ l := by
  rcases foldl_stepMin_mem f l none p h with h1 | h1
  · exact Option.noConfusion h1
  · exact h1

lemma firstMin_le (f : ℕ × ℕ → ℚ) (l : List (ℕ × ℕ)) (p : ℕ × ℕ)
    (h : firstMin f l = some p) : ∀ q ∈ l, f p ≤ f q :=
  (foldl_stepMin_le f l none p h).2

lemma firstMin_isSome (f : ℕ × ℕ → ℚ) (q : ℕ × ℕ) (l : List (ℕ × ℕ)) :
    ∃ p, firstMin f (q :: l) = some p := by
  unfold firstMin
  rw [List.foldl_cons, stepMin_none]
  cases hr : l.foldl (stepMin f) (some q) with
  | none => exact absurd hr (foldl_stepMin_ne_none f l q)
  | some p => exact ⟨p, rfl⟩

/-! ### The scan-order pair list -/

lemma mem_scanPairs {n a b : ℕ} : (a, b) ∈ scanPairs n ↔ a < b ∧ b < n := by
  unfold scanPairs
  rw [List.mem_flatMap]
  constructor
  · rintro ⟨i, hi, hmem⟩
    rw [List.mem_map] at hmem
    obtain ⟨j, hj, hpair⟩ := hmem
    rw [List.mem_range] at hi
    rw [List.mem_range'_1] at hj
    obtain ⟨h1, h2⟩ := Prod.mk.injEq i j a b ▸ hpair
    subst h1; subst h2
    omega
  · rintro ⟨hab, hbn⟩
    refine ⟨a, List.mem_range.mpr (lt_trans hab hbn), List.mem_map.mpr ⟨b, ?_, rfl⟩⟩
    rw [List.mem_range'_1]
    omega

lemma pairwise_scanPairs (n : ℕ) : (scanPairs n).Pairwise scanBefore := by
  unfold scanPairs
  rw [List.flatMap_def, List.pairwise_flatten]
  constructor
  · intro l hl
    rw [List.mem_map] at hl
    obtain ⟨i, _, hli⟩ := hl
    subst hli
    rw [List.pairwise_map]
    have h := List.pairwise_lt_range' (i + 1) (n - (i + 1)) 1
    refine h.imp ?_
    intro j1 j2 hj
    exact Or.inr ⟨rfl, hj⟩
  · rw [List.pairwise_map]
    have h := List.pairwise_lt_range n
    refine h.imp ?_
    intro i1 i2 hi p hp q hq
    rw [List.mem_map] at hp hq
    obtain ⟨j1, _, hp1⟩ := hp
    obtain ⟨j2, _, hq1⟩ := hq
    subst hp1; subst hq1
    exact Or.inl hi

/-! ### Simulation: the incremental scan computes the brute-force first minimum -/

lemma get?_eq_some_getD {l : List ℚ} {k : ℕ} (h : k < l.length) :
    l.get? k = some (l.getD k 0) := by
  rw [List.get?_eq_getElem?, List.getElem?_eq_getElem h, List.getD_eq_getElem?_getD,
    List.getElem?_eq_getElem h]
  rfl

lemma njInner_sync (dm : ℕ → ℕ → ℚ) (sums : List ℚ) (n_2 : ℚ) (i : ℕ)
    (hi : i < sums.length) :
    ∀ (js : List ℕ) (acc : Option (ℕ × ℕ)), (∀ j ∈ js, j < sums.length) →
    njInner ⟨dm, sums⟩ n_2 i js
        ((acc.map (qval dm sums n_2)).map (· + sums.getD i 0))
        (acc.map (qval dm sums n_2)) acc
      = (some
          (((js.map (Prod.mk i)).foldl (stepMin (qval dm sums n_2)) acc).map
              (qval dm sums n_2) |>.map (· + sums.getD i 0),
           ((js.map (Prod.mk i)).foldl (stepMin (qval dm sums n_2)) acc).map (qval dm sums n_2),
           (js.map (Prod.mk i)).foldl (stepMin (qval dm sums n_2)) acc),
         ⟨dm, sums⟩) := by
  intro js
  induction js with
  | nil => intro acc _; rfl
  | cons j js ih =>
    intro acc hjs
    have hj : j < sums.length := hjs j (List.mem_cons_self j js)
    have hjs' : ∀ k ∈ js, k < sums.length := fun k hk => hjs k (List.mem_cons_of_mem j hk)
    have e1 : qval dm sums n_2 (i, j) + sums.getD i 0 = dm i j * n_2 - sums.getD j 0 := by
      unfold qval; ring
    have e2 : dm i j * n_2 - sums.getD j 0 - sums.getD i 0 = qval dm sums n_2 (i, j) := by
      unfold qval; ring
    simp only [njInner, readSums, readDM, get?_eq_some_getD hj]
    rw [List.map_cons, List.foldl_cons]
    cases acc with
    | none =>
      rw [Option.map_none', Option.map_none']
      rw [if_pos (show qlt (dm i j * n_2 - sums.getD j 0) none from trivial)]
      rw [get?_eq_some_getD hi]
      dsimp only
      rw [stepMin_none]
      have h := ih (some (i, j)) hjs'
      rw [Option.map_some', Option.map_some'] at h
      rw [e1, ← e2] at h
      exact h
    | some p =>
      rw [Option.map_some', Option.map_some']
      by_cases hlt : qval dm sums n_2 (i, j) < qval dm sums n_2 p
      · have hcond : qlt (dm i j * n_2 - sums.getD j 0)
            (some (qval dm sums n_2 p + sums.getD i 0)) := by
          show dm i j * n_2 - sums.getD j 0 < qval dm sums n_2 p + sums.getD i 0
          unfold qval at hlt ⊢
          linarith
        rw [if_pos hcond]
        rw [get?_eq_some_getD hi]
        dsimp only
        rw [stepMin_some, if_pos hlt]
        have h := ih (some (i, j)) hjs'
        rw [Option.map_some', Option.map_some'] at h
        rw [e1, ← e2] at h
        exact h
      · have hcond : ¬ qlt (dm i j * n_2 - sums.getD j 0)
            (some (qval dm sums n_2 p + sums.getD i 0)) := by
          show ¬ (dm i j * n_2 - sums.getD j 0 < qval dm sums n_2 p + sums.getD i 0)
          unfold qval at hlt ⊢
          intro hcon
          exact hlt (by linarith)
        rw [if_neg hcond]
        rw [stepMin_some, if_neg hlt]
        have h := ih (some p) hjs'
        rw [Option.map_some', Option.map_some'] at h
        exact h

lemma njOuter_sync (dm : ℕ → ℕ → ℚ) (sums : List ℚ) (n_2 : ℚ) (n : ℕ)
    (hlen : n ≤ sums.length) :
    ∀ (is : List ℕ) (acc : Option (ℕ × ℕ)), (∀ i ∈ is, i < n) →
    njOuter ⟨dm, sums⟩ n_2 n is (acc.map (qval dm sums n_2)) acc
      = (some
          ((is.flatMap (fun i => (List.range' (i + 1) (n - (i + 1))).map (Prod.mk i))).foldl
              (stepMin (qval dm sums n_2)) acc |>.map (qval dm sums n_2),
           (is.flatMap (fun i => (List.range' (i + 1) (n - (i + 1))).map (Prod.mk i))).foldl
              (stepMin (qval dm sums n_2)) acc),
         ⟨dm, sums⟩) := by
  intro is
  induction is with
  | nil => intro acc _; rfl
  | cons i is ih =>
    intro acc his
    have hin : i < n := his i (List.mem_cons_self i is)
    have hi : i < sums.length := lt_of_lt_of_le hin hlen
    have hjs : ∀ j ∈ List.range' (i + 1) (n - (i + 1)), j < sums.length := by
      intro j hjmem
      rw [List.mem_range'_1] at hjmem
      omega
    simp only [njOuter, readSums, get?_eq_some_getD hi]
    rw [njInner_sync dm sums n_2 i hi (List.range' (i + 1) (n - (i + 1))) acc hjs]
    dsimp only
    rw [List.flatMap_cons, List.foldl_append]
    exact ih _ (fun k hk => his k (List.mem_cons_of_mem i hk))

/-- Master simulation theorem: whenever the sum vector provides at least `n`
entries, `nj_minq_cy` returns exactly the brute-force first minimum of the
Q-criterion over the scan-ordered upper triangle. -/
theorem nj_minq_cy_eq_firstMin (dm : ℕ → ℕ → ℚ) (sums : List ℚ) (n : ℕ)
    (hlen : n ≤ sums.length) :
    nj_minq_cy dm sums n = firstMin (qval dm sums ((n : ℚ) - 2)) (scanPairs n) := by
  unfold nj_minq_cy nj_minq_cy_st
  have h := njOuter_sync dm sums ((n : ℚ) - 2) n hlen (List.range n) none
    (fun i hi => List.mem_range.mp hi)
  rw [Option.map_none'] at h
  rw [h]
  rfl

lemma firstMin_scanPairs_isSome (f : ℕ × ℕ → ℚ) (n : ℕ) (hn : 2 ≤ n) :
    ∃ p, firstMin f (scanPairs n) = some p := by
  have hmem : ((0 : ℕ), (1 : ℕ)) ∈ scanPairs n := mem_scanPairs.mpr ⟨by omega, by omega⟩
  cases h : scanPairs n with
  | nil => rw [h] at hmem; exact absurd hmem (List.not_mem_nil _)
  | cons q l => exact firstMin_isSome f q l

lemma length_rowSums (n : ℕ) (dm : ℕ → ℕ → ℚ) : (rowSums n dm).length = n := by
  unfold rowSums
  rw [List.length_map, List.length_range]

/-- C1: on any valid input (`n ≥ 3`, symmetric zero-diagonal matrix, `sums`
the row-sum vector), the pair returned by `nj_minq_cy` satisfies `i < j` and
its Q value is a minimum of the full Q-matrix over all pairs `a < b`. -/
theorem nj_minq_cy_q_minimum (dm : ℕ → ℕ → ℚ) (sums : List ℚ) (n : ℕ)
    (hn : 3 ≤ n)
    (hsym : ∀ i j, i < n → j < n → dm i j = dm j i)
    (hdiag : ∀ i, i < n → dm i i = 0)
    (hsums : sums = rowSums n dm) :
    ∃ i j, nj_minq_cy dm sums n = some (i, j) ∧ i < j ∧
      ∀ a b, a < b → b < n →
        qval dm sums ((n : ℚ) - 2) (i, j) ≤ qval dm sums ((n : ℚ) - 2) (a, b) := by
  have hlen : n ≤ sums.length := by rw [hsums, length_rowSums]
  rw [nj_minq_cy_eq_firstMin dm sums n hlen]
  obtain ⟨p, hp⟩ := firstMin_scanPairs_isSome (qval dm sums ((n : ℚ) - 2)) n (by omega)
  obtain ⟨i, j⟩ := p
  have hij := mem_scanPairs.mp (firstMin_mem _ _ _ hp)
  exact ⟨i, j, hp, hij.1, fun a b hab hbn =>
    firstMin_le _ _ _ hp (a, b) (mem_scanPairs.mpr ⟨hab, hbn⟩)⟩

/-- C4: on any valid input, both returned indices lie inside the active
dimensionality: `0 ≤ i < j < n`. -/
theorem nj_minq_cy_indices_in_range (dm : ℕ → ℕ → ℚ) (sums : List ℚ) (n : ℕ)
    (hn : 3 ≤ n)
    (hsym : ∀ i j, i < n → j < n → dm i j = dm j i)
    (hdiag : ∀ i, i < n → dm i i = 0)
    (hsums : sums = rowSums n dm) :
    ∃ i j, nj_minq_cy dm sums n = some (i, j) ∧ i < j ∧ j < n := by
  have hlen : n ≤ sums.length := by rw [hsums, length_rowSums]
  rw [nj_minq_cy_eq_firstMin dm sums n hlen]
  obtain ⟨p, hp⟩ := firstMin_scanPairs_isSome (qval dm sums ((n : ℚ) - 2)) n (by omega)
  obtain ⟨i, j⟩ := p
  have hij := mem_scanPairs.mp (firstMin_mem _ _ _ hp)
  exact ⟨i, j, hp, hij.1, hij.2⟩

/-- C2: the returned pair is exactly the first pair attaining the minimum Q
value in scan order (`i` outer ascending, `j` inner ascending): it attains
the minimum, and every pair strictly earlier in scan order has a strictly
larger Q value. -/
theorem nj_minq_cy_first_min_pair (dm : ℕ → ℕ → ℚ) (sums : List ℚ) (n : ℕ)
    (hn : 3 ≤ n) (hlen : sums.length = n) :
    ∃ i j, nj_minq_cy dm sums n = some (i, j) ∧ i < j ∧ j < n ∧
      (∀ a b, a < b → b < n →
        qval dm sums ((n : ℚ) - 2) (i, j) ≤ qval dm sums ((n : ℚ) - 2) (a, b)) ∧
      (∀ a b, a < b → b < n → (a < i ∨ (a = i ∧ b < j)) →
        qval dm sums ((n : ℚ) - 2) (i, j) < qval dm sums ((n : ℚ) - 2) (a, b)) := by
  rw [nj_minq_cy_eq_firstMin dm sums n (le_of_eq hlen.symm)]
  obtain ⟨p, hp⟩ := firstMin_scanPairs_isSome (qval dm sums ((n : ℚ) - 2)) n (by omega)
  obtain ⟨i, j⟩ := p
  have hij := mem_scanPairs.mp (firstMin_mem _ _ _ hp)
  refine ⟨i, j, hp, hij.1, hij.2,
    fun a b hab hbn => firstMin_le _ _ _ hp (a, b) (mem_scanPairs.mpr ⟨hab, hbn⟩),
    fun a b hab hbn hbefore => ?_⟩
  obtain ⟨l1, l2, hdecomp, hstrict⟩ := firstMin_first _ _ _ hp
  have hmem_ab : (a, b) ∈ scanPairs n := mem_scanPairs.mpr ⟨hab, hbn⟩
  rw [hdecomp] at hmem_ab
  rcases List.mem_append.mp hmem_ab with h1 | h1
  · exact hstrict (a, b) h1
  · rcases List.mem_cons.mp h1 with h2 | h2
    · rw [Prod.mk.injEq] at h2
      exfalso
      rcases hbefore with h3 | ⟨h3, h4⟩ <;> omega
    · exfalso
      have hpw := pairwise_scanPairs n
      rw [hdecomp] at hpw
      have h3 := (List.pairwise_append.mp hpw).2.1
      have h4 := (List.pairwise_cons.mp h3).1 (a, b) h2
      unfold scanBefore at h4
      dsimp only at h4
      rcases hbefore with h5 | ⟨h5, h6⟩ <;> rcases h4 with h7 | ⟨h7, h8⟩ <;> omega

/-- C9: at dimension `n = 2` the single candidate pair always beats the
`INFINITY` initial minimum, so `nj_minq_cy` returns `(0, 1)` whatever the
matrix and sum values are. -/
theorem nj_minq_cy_n2_returns_01 (dm : ℕ → ℕ → ℚ) (sums : List ℚ)
    (hlen : sums.length = 2) :
    nj_minq_cy dm sums 2 = some (0, 1) := by
  rw [nj_minq_cy_eq_firstMin dm sums 2 (le_of_eq hlen.symm)]
  rfl

/-! ### Shift invariance of the selected pair -/

lemma getD_map_add {l : List ℚ} {c : ℚ} {k : ℕ} (h : k < l.length) :
    (l.map (· + c)).getD k 0 = l.getD k 0 + c := by
  rw [List.getD_eq_getElem?_getD, List.getD_eq_getElem?_getD, List.getElem?_map,
    List.getElem?_eq_getElem h]
  rfl

lemma foldl_stepMin_shift (f g : ℕ × ℕ → ℚ) (k : ℚ) :
    ∀ (l : List (ℕ × ℕ)) (acc : Option (ℕ × ℕ)),
    (∀ p ∈ l, g p = f p - k) → (∀ a, acc = some a → g a = f a - k) →
    l.foldl (stepMin f) acc = l.foldl (stepMin g) acc := by
  intro l
  induction l with
  | nil => intro acc _ _; rfl
  | cons p l ih =>
    intro acc hl hacc
    rw [List.foldl_cons, List.foldl_cons]
    have hp : g p = f p - k := hl p (List.mem_cons_self p l)
    have hstep : stepMin f acc p = stepMin g acc p := by
      cases acc with
      | none => rfl
      | some a =>
        rw [stepMin_some, stepMin_some]
        have ha : g a = f a - k := hacc a rfl
        by_cases hc : f p < f a
        · rw [if_pos hc, if_pos (show g p < g a by rw [hp, ha]; linarith)]
        · rw [if_neg hc, if_neg (show ¬ g p < g a by rw [hp, ha]; intro hcon; exact hc (by linarith))]
    have hacc' : ∀ a, stepMin g acc p = some a → g a = f a - k := by
      intro a ha
      cases acc with
      | none =>
        rw [stepMin_none] at ha
        rw [← Option.some.inj ha]
        exact hp
      | some b =>
        rw [stepMin_some] at ha
        by_cases hc : g p < g b
        · rw [if_pos hc] at ha; rw [← Option.some.inj ha]; exact hp
        · rw [if_neg hc] at ha; rw [← Option.some.inj ha]; exact hacc b rfl
    rw [hstep]
    exact ih (stepMin g acc p) (fun q hq => hl q (List.mem_cons_of_mem p hq)) hacc'

/-- C10: in exact arithmetic, adding the same constant `c` to every entry of
the sum vector does not change the returned index pair (every Q value moves
by `-2c`, both sides of each comparison move together). -/
theorem nj_minq_cy_shift_invariant (dm : ℕ → ℕ → ℚ) (sums : List ℚ) (n : ℕ) (c : ℚ)
    (hn : 2 ≤ n) (hlen : sums.length = n) :
    nj_minq_cy dm (sums.map (· + c)) n = nj_minq_cy dm sums n := by
  have hlen2 : (sums.map (· + c)).length = n := by rw [List.length_map]; exact hlen
  rw [nj_minq_cy_eq_firstMin dm sums n (le_of_eq hlen.symm),
    nj_minq_cy_eq_firstMin dm (sums.map (· + c)) n (le_of_eq hlen2.symm)]
  unfold firstMin
  refine (foldl_stepMin_shift (qval dm sums ((n : ℚ) - 2))
    (qval dm (sums.map (· + c)) ((n : ℚ) - 2)) (c + c) (scanPairs n) none ?_ ?_).symm
  · intro p hp
    obtain ⟨a, b⟩ := p
    obtain ⟨hab, hbn⟩ := mem_scanPairs.mp hp
    have ha : a < sums.length := by omega
    have hb : b < sums.length := by omega
    unfold qval
    dsimp only
    rw [getD_map_add ha, getD_map_add hb]
    ring
  · intro a ha
    exact Option.noConfusion ha

/-! ### The scan reads only the strict upper triangle of the matrix -/

lemma njInner_ext (dm1 dm2 : ℕ → ℕ → ℚ) (sums : List ℚ) (n_2 : ℚ) (i : ℕ) :
    ∀ (js : List ℕ) (mqp mq : Option ℚ) (mij : Option (ℕ × ℕ)),
    (∀ j ∈ js, dm1 i j = dm2 i j) →
    (njInner ⟨dm1, sums⟩ n_2 i js mqp mq mij).1 =
      (njInner ⟨dm2, sums⟩ n_2 i js mqp mq mij).1 := by
  intro js
  induction js with
  | nil => intro mqp mq mij _; rfl
  | cons j js ih =>
    intro mqp mq mij hdm
    have hd : dm1 i j = dm2 i j := hdm j (List.mem_cons_self j js)
    have hrest : ∀ k ∈ js, dm1 i k = dm2 i k :=
      fun k hk => hdm k (List.mem_cons_of_mem j hk)
    simp only [njInner, readSums, readDM]
    cases hj : sums.get? j with
    | none => rfl
    | some sj =>
      dsimp only
      rw [hd]
      by_cases hc : qlt (dm2 i j * n_2 - sj) mqp
      · rw [if_pos hc, if_pos hc]
        cases hi : sums.get? i with
        | none => rfl
        | some si => exact ih _ _ _ hrest
      · rw [if_neg hc, if_neg hc]
        exact ih _ _ _ hrest

lemma njOuter_ext (dm1 dm2 : ℕ → ℕ → ℚ) (sums : List ℚ) (n_2 : ℚ) (n : ℕ) :
    ∀ (is : List ℕ) (mq : Option ℚ) (mij : Option (ℕ × ℕ)),
    (∀ i ∈ is, ∀ j ∈ List.range' (i + 1) (n - (i + 1)), dm1 i j = dm2 i j) →
    (njOuter ⟨dm1, sums⟩ n_2 n is mq mij).1 =
      (njOuter ⟨dm2, sums⟩ n_2 n is mq mij).1 := by
  intro is
  induction is with
  | nil => intro mq mij _; rfl
  | cons i is ih =>
    intro mq mij hdm
    have hhead := hdm i (List.mem_cons_self i is)
    have hrest : ∀ k ∈ is, ∀ j ∈ List.range' (k + 1) (n - (k + 1)), dm1 k j = dm2 k j :=
      fun k hk => hdm k (List.mem_cons_of_mem i hk)
    simp only [njOuter, readSums]
    cases hi : sums.get? i with
    | none => rfl
    | some si =>
      dsimp only
      have hfst := njInner_ext dm1 dm2 sums n_2 i (List.range' (i + 1) (n - (i + 1)))
        (mq.map (· + si)) mq mij hhead
      have hsnd1 := njInner_state n_2 i (List.range' (i + 1) (n - (i + 1))) ⟨dm1, sums⟩
        (mq.map (· + si)) mq mij
      have hsnd2 := njInner_state n_2 i (List.range' (i + 1) (n - (i + 1))) ⟨dm2, sums⟩
        (mq.map (· + si)) mq mij
      cases hr1 : njInner ⟨dm1, sums⟩ n_2 i (List.range' (i + 1) (n - (i + 1)))
          (mq.map (· + si)) mq mij with
      | mk r1 st1 =>
        cases hr2 : njInner ⟨dm2, sums⟩ n_2 i (List.range' (i + 1) (n - (i + 1)))
            (mq.map (· + si)) mq mij with
        | mk r2 st2 =>
          rw [hr1, hr2] at hfst
          dsimp only at hfst
          subst hfst
          rw [hr1] at hsnd1
          rw [hr2] at hsnd2
          dsimp only at hsnd1 hsnd2
          subst hsnd1
          subst hsnd2
          cases r1 with
          | none => rfl
          | some t =>
            obtain ⟨mqp2, mq2, mij2⟩ := t
            exact ih mq2 mij2 hrest

lemma nj_minq_cy_ext (dm1 dm2 : ℕ → ℕ → ℚ) (sums : List ℚ) (n : ℕ)
    (hdm : ∀ i j, i < j → j < n → dm1 i j = dm2 i j) :
    nj_minq_cy dm1 sums n = nj_minq_cy dm2 sums n := by
  unfold nj_minq_cy nj_minq_cy_st
  have hext : ∀ i ∈ List.range n, ∀ j ∈ List.range' (i + 1) (n - (i + 1)),
      dm1 i j = dm2 i j := by
    intro i hi j hj
    rw [List.mem_range] at hi
    rw [List.mem_range'_1] at hj
    exact hdm i j (by omega) (by omega)
  have hfst := njOuter_ext dm1 dm2 sums ((n : ℚ) - 2) n (List.range n) none none hext
  cases hr1 : njOuter ⟨dm1, sums⟩ ((n : ℚ) - 2) n (List.range n) none none with
  | mk r1 st1 =>
    cases hr2 : njOuter ⟨dm2, sums⟩ ((n : ℚ) - 2) n (List.range n) none none with
    | mk r2 st2 =>
      rw [hr1, hr2] at hfst
      dsimp only at hfst
      subst hfst
      cases r1 with
      | none => rfl
      | some t =>
        obtain ⟨mq2, mij2⟩ := t
        rfl

/-- C8: the result depends only on the strict upper triangle of the matrix
(and the sum vector): cells on the diagonal and below it are never read. -/
theorem nj_minq_cy_upper_triangle_only (dm1 dm2 : ℕ → ℕ → ℚ)
    (sums1 sums2 : List ℚ) (n : ℕ) (hn : 2 ≤ n)
    (hdm : ∀ i j, i < j → j < n → dm1 i j = dm2 i j) (hsums : sums1 = sums2) :
    nj_minq_cy dm1 sums1 n = nj_minq_cy dm2 sums2 n := by
  subst hsums
  exact nj_minq_cy_ext dm1 dm2 sums1 n hdm

/-- C6: determinism — two calls on equal inputs (same matrix contents on the
`n × n` block, same sum vector, same dimension) return the same pair. -/
theorem nj_minq_cy_deterministic (dm1 dm2 : ℕ → ℕ → ℚ)
    (sums1 sums2 : List ℚ) (n : ℕ)
    (hdm : ∀ i j, i < n → j < n → dm1 i j = dm2 i j) (hsums : sums1 = sums2) :
    nj_minq_cy dm1 sums1 n = nj_minq_cy dm2 sums2 n := by
  subst hsums
  exact nj_minq_cy_ext dm1 dm2 sums1 n (fun i j hij hjn => hdm i j (by omega) hjn)

/-! ### Failure behaviour on undersized inputs (claim C3) -/

lemma njInner_oob (dm : ℕ → ℕ → ℚ) (sums : List ℚ) (n_2 : ℚ) (i : ℕ) :
    ∀ (js : List ℕ) (mqp mq : Option ℚ) (mij : Option (ℕ × ℕ)),
    (∃ j ∈ js, sums.length ≤ j) →
    (njInner ⟨dm, sums⟩ n_2 i js mqp mq mij).1 = none := by
  intro js
  induction js with
  | nil =>
    rintro mqp mq mij ⟨j, hj, _⟩
    exact absurd hj (List.not_mem_nil j)
  | cons j js ih =>
    rintro mqp mq mij ⟨k, hk, hklen⟩
    simp only [njInner, readSums, readDM]
    cases hj : sums.get? j with
    | none => rfl
    | some sj =>
      dsimp only
      have hjlen : j < sums.length := by
        by_contra hge
        rw [List.get?_eq_getElem?, List.getElem?_eq_none (by omega)] at hj
        exact Option.noConfusion hj
      have hktail : k ∈ js := by
        rcases List.mem_cons.mp hk with h1 | h1
        · exfalso; omega
        · exact h1
      by_cases hc : qlt (dm i j * n_2 - sj) mqp
      · rw [if_pos hc]
        cases hi : sums.get? i with
        | none => rfl
        | some si => exact ih _ _ _ ⟨k, hktail, hklen⟩
      · rw [if_neg hc]
        exact ih _ _ _ ⟨k, hktail, hklen⟩

lemma njOuter_oob_head (dm : ℕ → ℕ → ℚ) (sums : List ℚ) (n_2 : ℚ) (n i : ℕ)
    (is : List ℕ) (mq : Option ℚ) (mij : Option (ℕ × ℕ))
    (hi : i < sums.length)
    (hoob : ∃ j ∈ List.range' (i + 1) (n - (i + 1)), sums.length ≤ j) :
    (njOuter ⟨dm, sums⟩ n_2 n (i :: is) mq mij).1 = none := by
  simp only [njOuter, readSums, get?_eq_some_getD hi]
  have hfst := njInner_oob dm sums n_2 i (List.range' (i + 1) (n - (i + 1)))
    (mq.map (· + sums.getD i 0)) mq mij hoob
  cases hr : njInner ⟨dm, sums⟩ n_2 i (List.range' (i + 1) (n - (i + 1)))
      (mq.map (· + sums.getD i 0)) mq mij with
  | mk r st2 =>
    rw [hr] at hfst
    dsimp only at hfst
    subst hfst
    rfl

/-- Claim C3, amended: a call with `n < 2`, or with a sum vector shorter
than `n`, never produces an index pair — the scan either finishes with the
result variables still unassigned or hits an out-of-bounds read.  (A sum
vector *longer* than `n` is not detected; see the counterexample.) -/
theorem nj_minq_cy_short_input_none (dm : ℕ → ℕ → ℚ) (sums : List ℚ) (n : ℕ)
    (h : n < 2 ∨ sums.length < n) :
    nj_minq_cy dm sums n = none := by
  rcases h with h | h
  · rcases n with _ | n1
    · rfl
    · rcases n1 with _ | n2
      · rcases sums with _ | ⟨a, l⟩ <;> rfl
      · omega
  · have hn1 : 1 ≤ n := by omega
    obtain ⟨m, rfl⟩ : ∃ m, n = m + 1 := ⟨n - 1, by omega⟩
    unfold nj_minq_cy nj_minq_cy_st
    rw [List.range_succ_eq_map]
    cases sums with
    | nil =>
      simp only [njOuter, readSums]
      rfl
    | cons a l =>
      have h0 : (0 : ℕ) < (a :: l).length := by simp
      have hfst := njOuter_oob_head dm (a :: l) (((m + 1 : ℕ) : ℚ) - 2) (m + 1) 0
        ((List.range m).map Nat.succ) none none h0
        ⟨(a :: l).length, by rw [List.mem_range'_1]; constructor <;> simp_all <;> omega, le_refl _⟩
      cases hr : njOuter ⟨dm, a :: l⟩ (((m + 1 : ℕ) : ℚ) - 2) (m + 1)
          (0 :: (List.range m).map Nat.succ) none none with
      | mk r st2 =>
        rw [hr] at hfst
        dsimp only at hfst
        subst hfst
        rfl

/-- Claim C3, counterexample: a call whose sum vector has 4 entries while
the matrix dimension is 3 — the dimensions disagree, yet the call does not
fail: it ignores the extra entry and returns the index pair `(0, 1)`. -/
theorem nj_minq_cy_long_sums_returns_pair :
    nj_minq_cy dm3 [14, 15, 19, 99] 3 = some (0, 1) ∧
      ([(14 : ℚ), 15, 19, 99].length ≠ 3) := by
  constructor
  · rw [nj_minq_cy_eq_firstMin dm3 [14, 15, 19, 99] 3 (by norm_num)]
    have h1 : scanPairs 3 = [(0, 1), (0, 2), (1, 2)] := rfl
    rw [h1]
    unfold firstMin
    rw [List.foldl_cons, stepMin_none, List.foldl_cons,
      stepMin_some, if_neg (by norm_num [qval, dm3]), List.foldl_cons,
      stepMin_some, if_neg (by norm_num [qval, dm3]), List.foldl_nil]
  · norm_num

/-! ### Witness facts about the concrete inputs -/

lemma dm3_symm : ∀ i j, i < 3 → j < 3 → dm3 i j = dm3 j i := by
  intro i j hi hj
  interval_cases i <;> interval_cases j <;> rfl

lemma dm3_diag : ∀ i, i < 3 → dm3 i i = 0 := by
  intro i hi
  interval_cases i <;> rfl

lemma sums3_rowSums : sums3 = rowSums 3 dm3 := by
  unfold rowSums sums3
  norm_num [List.range_succ, dm3]

theorem nj_minq_cy_q_minimum_witness :
    ∃ i j, nj_minq_cy dm3 sums3 3 = some (i, j) ∧ i < j ∧
      ∀ a b, a < b → b < 3 →
        qval dm3 sums3 (((3 : ℕ) : ℚ) - 2) (i, j) ≤
          qval dm3 sums3 (((3 : ℕ) : ℚ) - 2) (a, b) :=
  nj_minq_cy_q_minimum dm3 sums3 3 (by norm_num) dm3_symm dm3_diag sums3_rowSums

theorem nj_minq_cy_indices_in_range_witness :
    ∃ i j, nj_minq_cy dm3 sums3 3 = some (i, j) ∧ i < j ∧ j < 3 :=
  nj_minq_cy_indices_in_range dm3 sums3 3 (by norm_num) dm3_symm dm3_diag sums3_rowSums

theorem nj_minq_cy_first_min_pair_witness :
    ∃ i j, nj_minq_cy dm3 sums3 3 = some (i, j) ∧ i < j ∧ j < 3 ∧
      (∀ a b, a < b → b < 3 →
        qval dm3 sums3 (((3 : ℕ) : ℚ) - 2) (i, j) ≤
          qval dm3 sums3 (((3 : ℕ) : ℚ) - 2) (a, b)) ∧
      (∀ a b, a < b → b < 3 → (a < i ∨ (a = i ∧ b < j)) →
        qval dm3 sums3 (((3 : ℕ) : ℚ) - 2) (i, j) <
          qval dm3 sums3 (((3 : ℕ) : ℚ) - 2) (a, b)) :=
  nj_minq_cy_first_min_pair dm3 sums3 3 (by norm_num) rfl

theorem nj_minq_cy_short_input_none_witness :
    nj_minq_cy dm3 [14, 15] 5 = none :=
  nj_minq_cy_short_input_none dm3 [14, 15] 5 (Or.inr (by norm_num))

theorem nj_minq_cy_deterministic_witness :
    nj_minq_cy dm3 sums3 3 = nj_minq_cy dm3pad sums3 3 :=
  nj_minq_cy_deterministic dm3 dm3pad sums3 sums3 3
    (by intro i j hi hj; interval_cases i <;> interval_cases j <;> rfl) rfl

theorem nj_minq_cy_upper_triangle_only_witness :
    nj_minq_cy dm3 sums3 3 = nj_minq_cy dm3low sums3 3 :=
  nj_minq_cy_upper_triangle_only dm3 dm3low sums3 sums3 3 (by norm_num)
    (by
      intro i j h1 h2
      interval_cases j
      · exact absurd h1 (Nat.not_lt_zero i)
      · interval_cases i
        · rfl
      · interval_cases i
        · rfl
        · rfl)
    rfl

theorem nj_minq_cy_n2_returns_01_witness :
    nj_minq_cy dm3 [3, 7] 2 = some (0, 1) :=
  nj_minq_cy_n2_returns_01 dm3 [3, 7] rfl

theorem nj_minq_cy_shift_invariant_witness :
    nj_minq_cy dm3 (sums3.map (· + 5)) 3 = nj_minq_cy dm3 sums3 3 :=
  nj_minq_cy_shift_invariant dm3 sums3 3 5 (by norm_num) rfl
